import Mathlib

/-!
Verification development for the PocketCoffea weight/variation
configuration-and-resolution engine.

The development shallowly embeds:
* `src/PocketCoffea/lib/WeightsManager.py` — the per-chunk weight
  accumulator (`WeightsManager.__init__`, `get_weight`, `add_weight`);
* `src/pocket_coffea/utils/configurator.py` — the configuration resolver
  (`Configurator.load_weights_config`).

Per-event numeric arrays are modelled as `List Int`: every property under
study is structural (which arrays are multiplied, which errors are raised),
not numerical, so an exact commutative ring suffices.

The external collaborator `coffea.analysis_tools.Weights` (out of scope for
the repository, consumed through a narrow interface) is modelled by the
`Weights` structure below: `add` appends an entry, and `weight modifier`
returns the elementwise product of all entries, substituting the varied
array for the nominal one of the entry owning the requested modifier.
-/

deriving instance DecidableEq for Except

/-- Per-event numeric array (one value per event of the chunk). -/
abbrev Arr := List Int

/-- Elementwise product of two per-event arrays. -/
def mulArr (a b : Arr) : Arr := List.zipWith (fun x y => x * y) a b

/-- Association-list lookup, first match wins (models Python dict lookup for
the insertion-ordered dictionaries of the source). -/
def alookup {α : Type} : List (String × α) → String → Option α
  | [], _ => none
  | (k, v) :: rest, s => if k = s then some v else alookup rest s

/-- One weight tuple as produced by `WeightsManager._compute_weight` or by a
custom weight function: a name, a nominal array, and optionally a paired
up/down variation (the source returns either 2-tuples or 4-tuples). -/
structure WTuple where
  name : String
  nominal : Arr
  upDown : Option (Arr × Arr)
deriving DecidableEq

/-- Model of the external `coffea.analysis_tools.Weights` accumulator:
the chunk size and the ordered list of added weight entries. -/
structure Weights where
  size : Nat
  entries : List WTuple
deriving DecidableEq

/-- Fresh accumulator, `Weights(size, storeIndividual)` (the
`storeIndividual` flag only affects coffea-internal bookkeeping). -/
def Weights.init (size : Nat) : Weights := ⟨size, []⟩

/-- `Weights.add(name, nominal, up, down)` — appends one entry. -/
def Weights.add (w : Weights) (t : WTuple) : Weights :=
  { w with entries := w.entries ++ [t] }

/-- Contribution of one entry to the combined weight under an optional
modifier: the up (resp. down) array if the modifier is this entry's name
suffixed with `Up` (resp. `Down`), the nominal array otherwise. -/
def entryFactor (modifier : Option String) (t : WTuple) : Arr :=
  match modifier, t.upDown with
  | some m, some ud =>
      if m = t.name ++ "Up" then ud.1
      else if m = t.name ++ "Down" then ud.2
      else t.nominal
  | _, _ => t.nominal

/-- `Weights.weight(modifier)` — elementwise product of all entries,
starting from an all-ones array of the chunk size. -/
def Weights.weight (w : Weights) (modifier : Option String) : Arr :=
  w.entries.foldl (fun acc t => mulArr acc (entryFactor modifier t))
    (List.replicate w.size (1 : Int))

/-- Errors the runtime accumulator can raise, mirroring the Python
exceptions of `WeightsManager`:
* `valueError msg` — `raise ValueError(msg)` in `get_weight`
  (the spec's ModifierNotAvailableError);
* `typeError` — `TypeError` from `self._available_modifiers_inclusive += None`
  when `__add_weight` returns `None` (bare `return`) for an unknown name;
* `attributeError` — access to the never-assigned attribute
  `self._weightsBinCat` in `add_weight`;
* `keyError` — lookup of a missing dictionary key. -/
inductive PyErr where
  | valueError (msg : String)
  | typeError
  | attributeError
  | keyError
deriving DecidableEq

/-- One item of a weight list in the resolved configuration: either a string
weight name, or a `WeightCustom` object.  A custom object carries its name
and the tuples its `function(events, metadata)` returns for this chunk (the
function's output is data at this level of modelling, since it is evaluated
on the fixed chunk of the accumulator under construction). -/
inductive WItem where
  | str (name : String)
  | custom (name : String) (result : List WTuple)
deriving DecidableEq

/-- Resolved per-sample weights configuration handed to the accumulator:
`weightsConf["inclusive"]`, `weightsConf["bycategory"]`,
`weightsConf["is_split_bycat"]`. -/
structure WeightsConf where
  inclusive : List WItem
  bycategory : List (String × List WItem)
  is_split_bycat : Bool
deriving DecidableEq

/-- The predefined weight names of `WeightsManager.available_weights()`. -/
def availableWeights : List String :=
  ["genWeight", "lumi", "XS", "pileup",
   "sf_ele_reco", "sf_ele_id", "sf_ele_trigger",
   "sf_mu_id", "sf_mu_iso",
   "sf_btag", "sf_btag_calib",
   "sf_jet_puId"]

/-- The per-chunk compute cache `_weightsCache`, keyed by weight name. -/
abbrev Cache := List (String × List WTuple)

/-- Modifier tokens contributed by one tuple: `name+"Up"`, `name+"Down"`
when the tuple has variations (`len(we) > 2`), nothing otherwise. -/
def modsOf (t : WTuple) : List String :=
  match t.upDown with
  | some _ => [t.name ++ "Up", t.name ++ "Down"]
  | none => []

/-- Modifier tokens installed by iterating over a cached list of tuples
(the `installed_modifiers` accumulation inside `__add_weight`). -/
def installedMods (tuples : List WTuple) : List String :=
  tuples.foldl (fun acc t => acc ++ modsOf t) []

/-- The shared core of both branches of `__add_weight`: if `key` is not in
the cache, compute (producing `result` and logging the computation), then
add every cached tuple to the accumulator and collect the installed
modifier tokens.  Returns the updated accumulator, cache, computation log
and the installed modifiers.  The log is ghost instrumentation recording
each invocation of a compute function (`_compute_weight` or a custom
weight's `function`), one entry per invocation. -/
def installCached (key : String) (result : List WTuple) (wobj : Weights)
    (cache : Cache) (log : List String) :
    Weights × Cache × List String × List String :=
  let cl : Cache × List String :=
    if (alookup cache key).isSome then (cache, log)
    else (cache ++ [(key, result)], log ++ [key])
  let tuples := (alookup cl.1 key).getD []
  (tuples.foldl (fun o t => o.add t) wobj, cl.1, cl.2, installedMods tuples)

/-- One call of the inner closure `__add_weight(w, weight_obj)`.  For a
string name not among the predefined weights the source executes a bare
`return`, i.e. returns Python `None`: this is the `none` in the fourth
component.  Otherwise the installed modifier list is returned. -/
def addWeightStep (compute : String → List WTuple) (w : WItem) (wobj : Weights)
    (cache : Cache) (log : List String) :
    Weights × Cache × List String × Option (List String) :=
  match w with
  | .str name =>
      if name ∈ availableWeights then
        let r := installCached name (compute name) wobj cache log
        (r.1, r.2.1, r.2.2.1, some r.2.2.2)
      else
        (wobj, cache, log, none)
  | .custom name result =>
      let r := installCached name result wobj cache log
      (r.1, r.2.1, r.2.2.1, some r.2.2.2)

/-- One `for w in ...` loop of the constructor over a weight list: each
iteration runs `__add_weight` and then extends the relevant modifier list
with its return value.  When `__add_weight` returned `None`, the Python
statement `... += modifiers` raises `TypeError` (NoneType is not
iterable). -/
def processItems (compute : String → List WTuple) :
    List WItem → Weights → Cache → List String → List String →
    Except PyErr (Weights × Cache × List String × List String)
  | [], wobj, cache, log, mods => .ok (wobj, cache, log, mods)
  | w :: rest, wobj, cache, log, mods =>
      match addWeightStep compute w wobj cache log with
      | (_, _, _, none) => .error .typeError
      | (wobj', cache', log', some installed) =>
          processItems compute rest wobj' cache' log' (mods ++ installed)

/-- The `for cat, ws in self.weightsConf["bycategory"].items()` loop of the
constructor: empty lists are skipped (`continue`); otherwise a fresh
`Weights` accumulator is created for the category, the category's weight
list is processed, and the category's modifier list is recorded (deduplicated
at the end of the constructor by the `set(v)` conversion).  The source keeps
`_weightsByCat` and `_available_modifiers_bycat` as two dictionaries that
are populated together for exactly the non-empty categories; the model
fuses them into one association list. -/
def processCats (compute : String → List WTuple) (size : Nat) :
    List (String × List WItem) → Cache → List String →
    Except PyErr (List (String × Weights × List String) × Cache × List String)
  | [], cache, log => .ok ([], cache, log)
  | (cat, ws) :: rest, cache, log =>
      if ws = [] then processCats compute size rest cache log
      else
        match processItems compute ws (Weights.init size) cache log [] with
        | .error e => .error e
        | .ok (wcat, cache', log', mods) =>
            match processCats compute size rest cache' log' with
            | .error e => .error e
            | .ok (restList, cache'', log'') =>
                .ok ((cat, wcat, mods.dedup) :: restList, cache'', log'')

/-- State of a constructed `WeightsManager`: the stored configuration, the
inclusive accumulator, the per-category accumulators fused with their
available-modifier sets, and the inclusive available-modifier set.  Python
sets are modelled as deduplicated lists (only membership is ever used). -/
structure WMState where
  weightsConf : WeightsConf
  weightsIncl : Weights
  bycat : List (String × Weights × List String)
  available_modifiers_inclusive : List String
deriving DecidableEq

/-- `WeightsManager.__init__` for one sample and one chunk.  `compute`
abstracts `self._compute_weight(w, events)`, i.e. the dispatch to the
external correction functions evaluated on this chunk.  Returns the
constructed state together with the ghost computation log. -/
def initWM (compute : String → List WTuple) (conf : WeightsConf) (size : Nat) :
    Except PyErr (WMState × List String) :=
  match processItems compute conf.inclusive (Weights.init size) [] [] [] with
  | .error e => .error e
  | .ok (wIncl, cache1, log1, modsIncl) =>
      if conf.is_split_bycat then
        match processCats compute size conf.bycategory cache1 log1 with
        | .error e => .error e
        | .ok (bycatList, _, log2) =>
            .ok ({ weightsConf := conf, weightsIncl := wIncl,
                   bycat := bycatList,
                   available_modifiers_inclusive := modsIncl.dedup }, log2)
      else
        .ok ({ weightsConf := conf, weightsIncl := wIncl, bycat := [],
               available_modifiers_inclusive := modsIncl.dedup }, log1)

/-- Pairing of the separately-optional `up`/`down` arguments of
`add_weight` into one optional variation (coffea registers a variation only
when the varied arrays are provided). -/
def pairUD : Option Arr → Option Arr → Option (Arr × Arr)
  | some u, some d => some (u, d)
  | _, _ => none

/-- `WeightsManager.add_weight(name, nominal, up, down, category)`.  With
`category=None` the weight is added to the inclusive accumulator.  With a
category given, the source reads `self._weightsBinCat[category]`, but no
attribute of that name is ever assigned (the per-category accumulators live
in `self._weightsByCat`), so the access raises `AttributeError`. -/
def add_weight (st : WMState) (name : String) (nominal : Arr)
    (up down : Option Arr) (category : Option String) : Except PyErr WMState :=
  match category with
  | none =>
      .ok { st with weightsIncl := st.weightsIncl.add ⟨name, nominal, pairUD up down⟩ }
  | some _ => .error .attributeError

/-- Lookup of a category in the fused per-category dictionaries
(`category in self._weightsByCat` / `self._weightsByCat[category]` /
`self._available_modifiers_bycat[category]`).  Python `None not in dict`
is `True`, hence the `none` case. -/
def lookupBC (st : WMState) : Option String → Option (Weights × List String)
  | none => none
  | some c => alookup st.bycat c

/-- Python truthiness of the `category` argument as tested by
`elif category and ...`: `None` and the empty string are falsy. -/
def catTruthy : Option String → Bool
  | none => false
  | some c => !(c == "")

/-- `WeightsManager.get_weight(category, modifier)`.  `.ok (some arr)`
models returning the array `arr`; `.ok none` models the implicit Python
`return None` reached when the `if`/`elif` chain falls through (a falsy
category string naming a split category).  The `keyError` arm of the inner
match is unreachable: the first branch already returned whenever the
category has no entry in `_weightsByCat`. -/
def get_weight (st : WMState) (category modifier : Option String) :
    Except PyErr (Option Arr) :=
  if category.isNone || !st.weightsConf.is_split_bycat
      || (lookupBC st category).isNone then
    match modifier with
    | none => .ok (some (st.weightsIncl.weight none))
    | some m =>
        if m ∈ st.available_modifiers_inclusive then
          .ok (some (st.weightsIncl.weight (some m)))
        else
          .error (.valueError ("Modifier " ++ m ++ " not available in inclusive category"))
  else if catTruthy category && st.weightsConf.is_split_bycat then
    match lookupBC st category, category with
    | some (wcat, mods), some c =>
        (match modifier with
         | none =>
             .ok (some (mulArr (st.weightsIncl.weight none) (wcat.weight none)))
         | some m =>
             if m ∈ st.available_modifiers_inclusive ∧ ¬ m ∈ mods then
               .ok (some (mulArr (st.weightsIncl.weight (some m)) (wcat.weight none)))
             else if ¬ m ∈ st.available_modifiers_inclusive ∧ m ∈ mods then
               .ok (some (mulArr (st.weightsIncl.weight none) (wcat.weight (some m))))
             else
               .error (.valueError ("Modifier " ++ m ++ " not available in category " ++ c)))
    | _, _ => .error .keyError
  else
    .ok none

/-- The invariant relating the compute cache and the ghost computation log
during construction: no name has been computed twice, and every computed
name is in the cache. -/
def CacheInv (cache : Cache) (log : List String) : Prop :=
  (∀ n : String, log.count n ≤ 1) ∧ ∀ n ∈ log, (alookup cache n).isSome

/-- Shape of every modifier token the constructor installs: some weight
name suffixed with `Up` or `Down`. -/
def UpDownShape (m : String) : Prop :=
  ∃ n : String, m = n ++ "Up" ∨ m = n ++ "Down"

/-!
Embedding of `Configurator.load_weights_config`
(`src/pocket_coffea/utils/configurator.py`, lines 248-320).
-/

/-- One item of a weight list in the declarative configuration: a string
weight name or a custom weight object (compared by identity/name; only
string items are validated against the available-weight set). -/
inductive CWeight where
  | str (name : String)
  | custom (name : String)
deriving DecidableEq

/-- `self.weights_config[sample]`: the per-sample resolved assignment. -/
structure SampleWeights where
  inclusive : List CWeight
  bycategory : List (String × List CWeight)
  is_split_bycat : Bool
deriving DecidableEq

/-- The whole `self.weights_config` dictionary, keyed by sample name. -/
abbrev CfgState := List (String × SampleWeights)

/-- `wcfg["common"]`: the `inclusive` list and the optional `bycategory`
mapping (`"bycategory" in wcfg["common"]`). -/
structure CommonWeightsCfg where
  inclusive : List CWeight
  bycategory : Option (List (String × List CWeight))
deriving DecidableEq

/-- One `wcfg["bysample"][sample]` overlay, with its optional `inclusive`
and `bycategory` parts. -/
structure SampleOverlayCfg where
  inclusive : Option (List CWeight)
  bycategory : Option (List (String × List CWeight))
deriving DecidableEq

/-- The declarative weights configuration passed to
`load_weights_config`: the optional `common` key and the optional
`bysample` mapping. -/
structure WeightsCfg where
  common : Option CommonWeightsCfg
  bysample : Option (List (String × SampleOverlayCfg))
deriving DecidableEq

/-- Errors raised by `load_weights_config`:
* `wrongWeightConfiguration printed` — `raise Exception("Wrong weight
  configuration")` preceded by `print(printed)`; the printed line is kept
  to distinguish the unknown-weight, missing-common and missing-sample
  cases, which all raise the same exception text;
* `duplicateCommonBycategory` — the `raise Exception` of the
  common-bycategory duplicate check; its message is a plain (non-f-string)
  triple-quoted literal, so it names no weight;
* `duplicateBysampleBycategory w` — the f-string duplicate `raise` of the
  bysample-bycategory path, which formats the offending weight;
* `keyError k` — lookup/append on a dictionary key `k` that is absent
  (e.g. a configured category unknown to `self.categories`). -/
inductive ConfigError where
  | wrongWeightConfiguration (printed : String)
  | duplicateCommonBycategory
  | duplicateBysampleBycategory (w : CWeight)
  | keyError (k : String)
deriving DecidableEq

/-- The line printed before the unknown-weight raise:
`Weight ... not available in the workflow`. -/
def unknownWeightMsg : CWeight → String
  | .str n => "Weight " ++ n ++ " not available in the workflow"
  | .custom n => "Weight " ++ n ++ " not available in the workflow"

/-- The line printed before the missing-sample raise. -/
def missingSampleMsg (s : String) : String :=
  "Requested missing sample " ++ s ++ " in the weights configuration"

/-- The line printed before the missing-`common` raise. -/
def missingCommonMsg : String :=
  "Weights configuration error: missing 'common' weights key"

/-- Initial `self.weights_config`: for every sample an empty `inclusive`
list, an empty list per known category, and `is_split_bycat = False`. -/
def initialWeightsConfig (samples cats : List String) : CfgState :=
  samples.map (fun s => (s, ⟨[], cats.map (fun c => (c, [])), false⟩))

/-- The availability check applied to every configured item: a string name
must be among the available weights; custom objects pass unchecked. -/
def checkAvail (avail : List String) : CWeight → Bool
  | .str n => avail.contains n
  | .custom _ => true

/-- `wsample["bycategory"][cat].append(w)` — appends to the list stored
under the key `cat`, or fails (Python `KeyError`) when the key is absent. -/
def appendBycat (bycats : List (String × List CWeight)) (cat : String)
    (w : CWeight) : Option (List (String × List CWeight)) :=
  match bycats with
  | [] => none
  | (c, l) :: rest =>
      if c = cat then some ((c, l ++ [w]) :: rest)
      else
        match appendBycat rest cat w with
        | none => none
        | some r => some ((c, l) :: r)

/-- The `common.inclusive` loop: validate each weight, then append it to
every sample's `inclusive` list. -/
def applyCommonInclusive (avail : List String) :
    List CWeight → CfgState → Except ConfigError CfgState
  | [], st => .ok st
  | w :: rest, st =>
      if checkAvail avail w then
        applyCommonInclusive avail rest
          (st.map (fun p => (p.1, { p.2 with inclusive := p.2.inclusive ++ [w] })))
      else .error (.wrongWeightConfiguration (unknownWeightMsg w))

/-- The inner `for wsample in self.weights_config.values()` loop of the
common-bycategory processing for one weight `w` of category `cat`: set
`is_split_bycat`, fail on a duplicate against the sample's `inclusive`,
otherwise append to the sample's `bycategory[cat]`. -/
def commonBycatSamples (cat : String) (w : CWeight) :
    CfgState → Except ConfigError CfgState
  | [] => .ok []
  | (s, e) :: rest =>
      if w ∈ e.inclusive then .error .duplicateCommonBycategory
      else
        match appendBycat e.bycategory cat w with
        | none => .error (.keyError cat)
        | some b =>
            match commonBycatSamples cat w rest with
            | .error err => .error err
            | .ok rest' =>
                .ok ((s, { e with bycategory := b, is_split_bycat := true }) :: rest')

/-- The `for w in weights` loop of one `common.bycategory` entry. -/
def commonBycatWeights (avail : List String) (cat : String) :
    List CWeight → CfgState → Except ConfigError CfgState
  | [], st => .ok st
  | w :: rest, st =>
      if checkAvail avail w then
        match commonBycatSamples cat w st with
        | .error e => .error e
        | .ok st' => commonBycatWeights avail cat rest st'
      else .error (.wrongWeightConfiguration (unknownWeightMsg w))

/-- The `for cat, weights in wcfg["common"]["bycategory"].items()` loop. -/
def applyCommonBycat (avail : List String) :
    List (String × List CWeight) → CfgState → Except ConfigError CfgState
  | [], st => .ok st
  | (cat, ws) :: rest, st =>
      match commonBycatWeights avail cat ws st with
      | .error e => .error e
      | .ok st' => applyCommonBycat avail rest st'

/-- The `bysample...inclusive` loop for one sample: validate and append to
that sample's `inclusive` list.  Note that, unlike the bycategory paths,
this path performs no duplicate check of any kind. -/
def bysampleInclusive (avail : List String) :
    List CWeight → SampleWeights → Except ConfigError SampleWeights
  | [], e => .ok e
  | w :: rest, e =>
      if checkAvail avail w then
        bysampleInclusive avail rest { e with inclusive := e.inclusive ++ [w] }
      else .error (.wrongWeightConfiguration (unknownWeightMsg w))

/-- The `bysample...bycategory` loop for one sample and one category:
validate, fail with the f-string duplicate error when the weight is already
in that sample's `inclusive`, append to `bycategory[cat]`, and set
`is_split_bycat`. -/
def bysampleBycatWeights (avail : List String) (cat : String) :
    List CWeight → SampleWeights → Except ConfigError SampleWeights
  | [], e => .ok e
  | w :: rest, e =>
      if checkAvail avail w then
        if w ∈ e.inclusive then .error (.duplicateBysampleBycategory w)
        else
          match appendBycat e.bycategory cat w with
          | none => .error (.keyError cat)
          | some b =>
              bysampleBycatWeights avail cat rest
                { e with bycategory := b, is_split_bycat := true }
      else .error (.wrongWeightConfiguration (unknownWeightMsg w))

/-- The `for cat, weights in s_wcfg["bycategory"].items()` loop of one
bysample overlay. -/
def applyOverlayBycat (avail : List String) :
    List (String × List CWeight) → SampleWeights → Except ConfigError SampleWeights
  | [], e => .ok e
  | (cat, ws) :: rest, e =>
      match bysampleBycatWeights avail cat ws e with
      | .error err => .error err
      | .ok e' => applyOverlayBycat avail rest e'

/-- One whole bysample overlay for one sample: the optional `inclusive`
part first, then the optional `bycategory` part. -/
def applyOverlay (avail : List String) (ov : SampleOverlayCfg)
    (e : SampleWeights) : Except ConfigError SampleWeights :=
  match (match ov.inclusive with
         | none => Except.ok e
         | some ws => bysampleInclusive avail ws e) with
  | .error err => .error err
  | .ok e1 =>
      match ov.bycategory with
      | none => .ok e1
      | some bl => applyOverlayBycat avail bl e1

/-- Replace the entry of one sample in `self.weights_config`. -/
def setSample : CfgState → String → SampleWeights → CfgState
  | [], _, _ => []
  | (s, e) :: rest, s0, e0 =>
      if s = s0 then (s0, e0) :: rest else (s, e) :: setSample rest s0 e0

/-- The `for sample, s_wcfg in wcfg["bysample"].items()` loop: unknown
samples are fatal; otherwise the overlay is applied to that sample's entry
only. -/
def applyBysample (avail samples : List String) :
    List (String × SampleOverlayCfg) → CfgState → Except ConfigError CfgState
  | [], st => .ok st
  | (s, ov) :: rest, st =>
      if samples.contains s then
        match alookup st s with
        | none => .error (.keyError s)
        | some e =>
            match applyOverlay avail ov e with
            | .error err => .error err
            | .ok e' => applyBysample avail samples rest (setSample st s e')
      else .error (.wrongWeightConfiguration (missingSampleMsg s))

/-- `Configurator.load_weights_config(wcfg)`, starting from the freshly
initialised `self.weights_config` (as `Configurator.__init__` does):
missing `common` is fatal, then the common inclusive layer, the common
bycategory layer, and the bysample overlays are applied in order. -/
def load_weights_config (avail samples cats : List String)
    (cfg : WeightsCfg) : Except ConfigError CfgState :=
  match cfg.common with
  | none => .error (.wrongWeightConfiguration missingCommonMsg)
  | some com =>
      match applyCommonInclusive avail com.inclusive
              (initialWeightsConfig samples cats) with
      | .error e => .error e
      | .ok st1 =>
          match (match com.bycategory with
                 | none => Except.ok st1
                 | some bc => applyCommonBycat avail bc st1) with
          | .error e => .error e
          | .ok st2 =>
              match cfg.bysample with
              | none => .ok st2
              | some bl => applyBysample avail samples bl st2

/-- Keys of an association list, in order. -/
def keysOf {α : Type} (l : List (String × α)) : List String := l.map Prod.fst

/-- Invariant of `self.weights_config` during the common-bycategory phase:
every sample's `inclusive` list equals the fixed list `I` laid down by the
common-inclusive phase, and every sample's `bycategory` dictionary has
exactly the known categories as keys. -/
def GoodSt (I : List CWeight) (cats : List String) (st : CfgState) : Prop :=
  ∀ p ∈ st, (p : String × SampleWeights).2.inclusive = I ∧ keysOf p.2.bycategory = cats

/-!
Concrete instances used by counterexamples and witnesses.
-/

/-- A tuple with variations, as `_compute_weight("pileup")` returns for a
1-event chunk (the numeric values stand for the external scale-factor
arrays). -/
def pileupT : WTuple := ⟨"pileup", [2], some ([3], [1])⟩

/-- A tuple without variations, as `_compute_weight("genWeight")` returns
for a 1-event chunk. -/
def genWeightT : WTuple := ⟨"genWeight", [2], none⟩

/-- A concrete compute environment (`_compute_weight` evaluated on a fixed
1-event chunk). -/
def exCompute : String → List WTuple := fun n =>
  if n = "pileup" then [pileupT]
  else if n = "genWeight" then [genWeightT]
  else []

/-- Sample configuration: `genWeight` inclusive, `pileup` in category
`"SR"`. -/
def srConf : WeightsConf := ⟨[.str "genWeight"], [("SR", [.str "pileup"])], true⟩

/-- The `"SR"` category accumulator produced for `srConf`. -/
def srWcat : Weights := ⟨1, [pileupT]⟩

/-- The manager state `initWM exCompute srConf 1` produces. -/
def srSt : WMState :=
  ⟨srConf, ⟨1, [genWeightT]⟩, [("SR", srWcat, ["pileupUp", "pileupDown"])], []⟩

/-- Sample configuration whose split category is named by the empty
string. -/
def emptyCatConf : WeightsConf := ⟨[], [("", [.str "pileup"])], true⟩

/-- The manager state `initWM exCompute emptyCatConf 1` produces: the
empty-named category has a dedicated accumulator holding `pileup`. -/
def emptyCatSt : WMState :=
  ⟨emptyCatConf, ⟨1, []⟩, [("", srWcat, ["pileupUp", "pileupDown"])], []⟩

/-- Configuration referencing `pileup` inclusively and in two categories. -/
def conf7 : WeightsConf :=
  ⟨[.str "pileup"], [("A", [.str "pileup"]), ("B", [.str "pileup"])], true⟩

/-- The manager state `initWM exCompute conf7 1` produces. -/
def st7 : WMState :=
  ⟨conf7, ⟨1, [pileupT]⟩,
   [("A", ⟨1, [pileupT]⟩, ["pileupUp", "pileupDown"]),
    ("B", ⟨1, [pileupT]⟩, ["pileupUp", "pileupDown"])],
   ["pileupUp", "pileupDown"]⟩

/-!
Claims C1-C3: the `get_weight` composition rules.

All three claims quantify over "every category that has a dedicated
per-category accumulator".  The dispatch of `get_weight` tests the category
string for Python truthiness (`elif category and ...`), so a split category
named by the empty string is routed to neither branch and the function
falls through, returning `None`.  The counterexamples exhibit this on a
state actually constructed by `initWM`; the amended theorems add the
non-emptiness of the category name.
-/

/-- C1 (amended): for a sample with `is_split_bycat = true`, a category
with a dedicated accumulator whose name is non-empty, and a modifier in the
category's available-modifier set but not in the inclusive one,
`get_weight(category, modifier)` is the elementwise product of the
inclusive NOMINAL total and the category total with the modifier applied —
the inclusive factor is never the varied one. -/
theorem c1_no_double_counting (st : WMState) (c : String) (wcat : Weights)
    (mods : List String) (m : String)
    (hsplit : st.weightsConf.is_split_bycat = true)
    (hc : alookup st.bycat c = some (wcat, mods))
    (hne : c ≠ "")
    (hm : m ∈ mods) (hni : ¬ m ∈ st.available_modifiers_inclusive) :
    get_weight st (some c) (some m) =
      .ok (some (mulArr (st.weightsIncl.weight none) (wcat.weight (some m)))) := by
  simp [get_weight, lookupBC, hsplit, hc, catTruthy, hne, hm, hni]

/-- C1 witness: the amended theorem applied to the concrete state built
from `srConf` (inclusive `genWeight`, category `SR` with `pileup`). -/
theorem c1_witness :
    srSt.weightsConf.is_split_bycat = true
    ∧ alookup srSt.bycat "SR" = some (srWcat, ["pileupUp", "pileupDown"])
    ∧ "SR" ≠ ""
    ∧ "pileupUp" ∈ ["pileupUp", "pileupDown"]
    ∧ ¬ "pileupUp" ∈ srSt.available_modifiers_inclusive
    ∧ get_weight srSt (some "SR") (some "pileupUp") =
        .ok (some (mulArr (srSt.weightsIncl.weight none) (srWcat.weight (some "pileupUp")))) :=
  ⟨by decide, by decide, by decide, by decide, by decide,
   c1_no_double_counting srSt "SR" srWcat ["pileupUp", "pileupDown"] "pileupUp"
     (by decide) (by decide) (by decide) (by decide) (by decide)⟩

/-- C1 counterexample: in the state built by the constructor from
`emptyCatConf`, the empty-named category has a dedicated accumulator and
`"pileupUp"` is available in its scope only, yet `get_weight` returns
`None` (the dispatch falls through on the falsy category string) instead of
the claimed product. -/
theorem c1_counterexample :
    initWM exCompute emptyCatConf 1 = .ok (emptyCatSt, ["pileup"])
    ∧ emptyCatSt.weightsConf.is_split_bycat = true
    ∧ alookup emptyCatSt.bycat "" = some (srWcat, ["pileupUp", "pileupDown"])
    ∧ "pileupUp" ∈ ["pileupUp", "pileupDown"]
    ∧ ¬ "pileupUp" ∈ emptyCatSt.available_modifiers_inclusive
    ∧ get_weight emptyCatSt (some "") (some "pileupUp") = .ok none
    ∧ ¬ get_weight emptyCatSt (some "") (some "pileupUp") =
        .ok (some (mulArr (emptyCatSt.weightsIncl.weight none)
          (srWcat.weight (some "pileupUp")))) := by
  decide

/-- C2 (amended): for a split sample and a category with a dedicated
accumulator whose name is non-empty, a modifier that is in both the
inclusive and the category available-modifier sets, or in neither, makes
`get_weight` fail with the modifier-not-available `ValueError`. -/
theorem c2_ambiguous_or_missing_raises (st : WMState) (c : String)
    (wcat : Weights) (mods : List String) (m : String)
    (hsplit : st.weightsConf.is_split_bycat = true)
    (hc : alookup st.bycat c = some (wcat, mods))
    (hne : c ≠ "")
    (hiff : m ∈ st.available_modifiers_inclusive ↔ m ∈ mods) :
    get_weight st (some c) (some m) =
      .error (.valueError ("Modifier " ++ m ++ " not available in category " ++ c)) := by
  by_cases hmi : m ∈ st.available_modifiers_inclusive
  · have hmb : m ∈ mods := hiff.mp hmi
    simp [get_weight, lookupBC, hsplit, hc, catTruthy, hne, hmi, hmb]
  · have hmb : ¬ m ∈ mods := fun h => hmi (hiff.mpr h)
    simp [get_weight, lookupBC, hsplit, hc, catTruthy, hne, hmi, hmb]

/-- C2 witness: the amended theorem applied at the concrete `srSt` state
with the modifier `"bogusUp"`, available in neither scope. -/
theorem c2_witness :
    srSt.weightsConf.is_split_bycat = true
    ∧ alookup srSt.bycat "SR" = some (srWcat, ["pileupUp", "pileupDown"])
    ∧ "SR" ≠ ""
    ∧ ("bogusUp" ∈ srSt.available_modifiers_inclusive ↔
        "bogusUp" ∈ ["pileupUp", "pileupDown"])
    ∧ get_weight srSt (some "SR") (some "bogusUp") =
        .error (.valueError "Modifier bogusUp not available in category SR") :=
  ⟨by decide, by decide, by decide, by decide,
   c2_ambiguous_or_missing_raises srSt "SR" srWcat ["pileupUp", "pileupDown"]
     "bogusUp" (by decide) (by decide) (by decide) (by decide)⟩

/-- C2 counterexample: in the constructor-built state `emptyCatSt`, the
empty-named split category has a dedicated accumulator and `"bogusUp"` is
in neither availability set, yet `get_weight` silently returns `None`
instead of failing with the modifier-not-available error. -/
theorem c2_counterexample :
    initWM exCompute emptyCatConf 1 = .ok (emptyCatSt, ["pileup"])
    ∧ emptyCatSt.weightsConf.is_split_bycat = true
    ∧ alookup emptyCatSt.bycat "" = some (srWcat, ["pileupUp", "pileupDown"])
    ∧ ¬ "bogusUp" ∈ emptyCatSt.available_modifiers_inclusive
    ∧ ¬ "bogusUp" ∈ ["pileupUp", "pileupDown"]
    ∧ get_weight emptyCatSt (some "") (some "bogusUp") = .ok none := by
  decide

/-- C3 (amended): for a split sample and a category with a dedicated
accumulator whose name is non-empty, `get_weight(category, None)` equals
the elementwise product of `get_weight(None, None)` and the category-only
nominal total. -/
theorem c3_composition (st : WMState) (c : String) (wcat : Weights)
    (mods : List String)
    (hsplit : st.weightsConf.is_split_bycat = true)
    (hc : alookup st.bycat c = some (wcat, mods))
    (hne : c ≠ "") :
    get_weight st (some c) none =
      .ok (some (mulArr (st.weightsIncl.weight none) (wcat.weight none)))
    ∧ get_weight st none none = .ok (some (st.weightsIncl.weight none)) := by
  constructor
  · simp [get_weight, lookupBC, hsplit, hc, catTruthy, hne]
  · simp [get_weight, lookupBC]

/-- C3 witness: the amended theorem applied at the concrete `srSt` state. -/
theorem c3_witness :
    srSt.weightsConf.is_split_bycat = true
    ∧ alookup srSt.bycat "SR" = some (srWcat, ["pileupUp", "pileupDown"])
    ∧ "SR" ≠ ""
    ∧ get_weight srSt (some "SR") none =
        .ok (some (mulArr (srSt.weightsIncl.weight none) (srWcat.weight none)))
    ∧ get_weight srSt none none = .ok (some (srSt.weightsIncl.weight none)) :=
  ⟨by decide, by decide, by decide,
   (c3_composition srSt "SR" srWcat ["pileupUp", "pileupDown"]
     (by decide) (by decide) (by decide)).1,
   (c3_composition srSt "SR" srWcat ["pileupUp", "pileupDown"]
     (by decide) (by decide) (by decide)).2⟩

/-- C3 counterexample: in the constructor-built state `emptyCatSt`, the
empty-named category has a dedicated accumulator, yet
`get_weight("", None)` returns `None` rather than the product of the
inclusive nominal total and the category nominal total. -/
theorem c3_counterexample :
    initWM exCompute emptyCatConf 1 = .ok (emptyCatSt, ["pileup"])
    ∧ alookup emptyCatSt.bycat "" = some (srWcat, ["pileupUp", "pileupDown"])
    ∧ emptyCatSt.weightsConf.is_split_bycat = true
    ∧ get_weight emptyCatSt (some "") none = .ok none
    ∧ ¬ get_weight emptyCatSt (some "") none =
        .ok (some (mulArr (emptyCatSt.weightsIncl.weight none) (srWcat.weight none))) := by
  decide

/-!
Claim C8: unknown string names during accumulator construction.
-/

/-- C8: constructing the accumulator with an inclusive list containing a
string weight name outside the predefined available weights does NOT
complete without error.  `__add_weight` ends in a bare `return` for such a
name (its comment says "DO nothing", so skipping was the intent), which
returns Python `None`; the constructor then executes
`self._available_modifiers_inclusive += None` and raises `TypeError`
(NoneType is not iterable), i.e. construction fails. -/
theorem c8_unknown_name_raises_typeerror :
    initWM exCompute ⟨[.str "my_processor_weight"], [], false⟩ 5 =
      .error .typeError := by decide

/-!
Claim C9: the `add_weight` escape hatch.
-/

/-- C9: `add_weight` with `category=None` adds the weight to the inclusive
accumulator and returns normally, but with a category given it reads
`self._weightsBinCat[category]` — an attribute that is never assigned (the
per-category accumulators are stored in `self._weightsByCat`) — and hence
raises `AttributeError`, even when the category has a dedicated
accumulator, as `"SR"` does in `srSt`. -/
theorem c9_add_weight_category_attributeerror :
    add_weight srSt "myw" [1] none none (some "SR") = .error .attributeError
    ∧ add_weight srSt "myw" [1] none none none =
        .ok { srSt with weightsIncl := srSt.weightsIncl.add ⟨"myw", [1], none⟩ } := by
  decide

/-!
Claim C5: duplicate detection in the bysample overlay.

The bysample overlay duplicate-checks only its `bycategory` additions
(against the sample's current `inclusive` list); its `inclusive` additions
are validated for availability only and never checked against the sample's
`bycategory` lists.  The counterexample resolves a configuration to a state
holding `pileup` in both scopes for the same sample.
-/

/-- C5 (amended): when applying a bysample overlay, adding a weight to a
`bycategory` list when that weight is already in the sample's current
`inclusive` list fails with the (f-string) duplicate error; this is the
only direction of duplicate detection the overlay performs. -/
theorem c5_bysample_bycat_dup_detected (avail samples : List String)
    (st : CfgState) (s : String) (e : SampleWeights) (cat : String)
    (w : CWeight) (ws : List CWeight)
    (hs : s ∈ samples) (he : alookup st s = some e)
    (hav : checkAvail avail w = true) (hdup : w ∈ e.inclusive) :
    applyBysample avail samples [(s, ⟨none, some [(cat, w :: ws)]⟩)] st =
      .error (.duplicateBysampleBycategory w) := by
  simp [applyBysample, hs, he, applyOverlay, applyOverlayBycat,
        bysampleBycatWeights, hav, hdup]

/-- C5 witness: the amended theorem applied to a concrete state in which
sample `ttH` already has `pileup` in `inclusive`. -/
theorem c5_witness :
    "ttH" ∈ (["ttH"] : List String)
    ∧ alookup [("ttH", (⟨[CWeight.str "pileup"], [("SR", [])], false⟩ : SampleWeights))] "ttH"
        = some ⟨[CWeight.str "pileup"], [("SR", [])], false⟩
    ∧ checkAvail ["pileup"] (CWeight.str "pileup") = true
    ∧ CWeight.str "pileup" ∈ [CWeight.str "pileup"]
    ∧ applyBysample ["pileup"] ["ttH"]
        [("ttH", ⟨none, some [("SR", [CWeight.str "pileup"])]⟩)]
        [("ttH", ⟨[CWeight.str "pileup"], [("SR", [])], false⟩)] =
        .error (.duplicateBysampleBycategory (CWeight.str "pileup")) :=
  ⟨by decide, by decide, by decide, by decide,
   c5_bysample_bycat_dup_detected ["pileup"] ["ttH"]
     [("ttH", ⟨[CWeight.str "pileup"], [("SR", [])], false⟩)] "ttH"
     ⟨[CWeight.str "pileup"], [("SR", [])], false⟩ "SR"
     (CWeight.str "pileup") []
     (by decide) (by decide) (by decide) (by decide)⟩

/-- C5 counterexample: resolving a configuration that adds `pileup` to
sample `ttH`'s `inclusive` via `bysample` although `pileup` is already in
that sample's `bycategory["SR"]` list (placed there by `common.bycategory`)
succeeds silently — the resolved state carries `pileup` in both scopes —
instead of failing with a duplicate error as the claim requires. -/
theorem c5_counterexample :
    load_weights_config ["pileup"] ["ttH"] ["SR"]
      ⟨some ⟨[], some [("SR", [CWeight.str "pileup"])]⟩,
       some [("ttH", ⟨some [CWeight.str "pileup"], none⟩)]⟩ =
      .ok [("ttH", ⟨[CWeight.str "pileup"], [("SR", [CWeight.str "pileup"])], true⟩)] := by
  decide

/-!
Claim C4: duplicate rejection at resolution time.

Helper lemmas tracing `load_weights_config` through the common-inclusive
and common-bycategory phases.
-/

/-- The common-inclusive phase succeeds when every configured weight passes
the availability check, and appends the whole list to every sample's
`inclusive`. -/
theorem applyCommonInclusive_ok (avail : List String) (ws : List CWeight)
    (h : ∀ w ∈ ws, checkAvail avail w = true) :
    ∀ st : CfgState, applyCommonInclusive avail ws st =
      .ok (st.map (fun p => (p.1, { p.2 with inclusive := p.2.inclusive ++ ws }))) := by
  induction ws with
  | nil =>
      intro st
      simp [applyCommonInclusive]
  | cons w rest ih =>
      intro st
      have hw : checkAvail avail w = true := h w (List.mem_cons_self _ _)
      rw [applyCommonInclusive, if_pos hw,
          ih (fun w' hw' => h w' (List.mem_cons_of_mem _ hw'))]
      simp [List.map_map, Function.comp]

/-- Appending under an existing key succeeds and preserves the key list. -/
theorem appendBycat_mem {bycats : List (String × List CWeight)} {cat : String}
    (w : CWeight) (h : cat ∈ keysOf bycats) :
    ∃ b, appendBycat bycats cat w = some b ∧ keysOf b = keysOf bycats := by
  induction bycats with
  | nil => simp [keysOf] at h
  | cons p rest ih =>
      obtain ⟨c, l⟩ := p
      by_cases hc : c = cat
      · exact ⟨(c, l ++ [w]) :: rest, by simp [appendBycat, hc], by simp [keysOf]⟩
      · have hm : cat ∈ keysOf rest := by
          simp [keysOf] at h
          rcases h with h | h
          · exact absurd h (fun hh => hc hh.symm)
          · simpa [keysOf] using h
        obtain ⟨b, hb, hkb⟩ := ih hm
        refine ⟨(c, l) :: b, by simp [appendBycat, hc, hb], ?_⟩
        simp only [keysOf, List.map_cons] at hkb ⊢
        rw [hkb]

/-- The per-sample loop of one common-bycategory weight raises the
duplicate error as soon as the weight is in the (shared) inclusive list. -/
theorem commonBycatSamples_dup (cat : String) (w : CWeight) (st : CfgState)
    (I : List CWeight) (cats : List String)
    (hg : GoodSt I cats st) (hne : st ≠ []) (hdup : w ∈ I) :
    commonBycatSamples cat w st = .error .duplicateCommonBycategory := by
  cases st with
  | nil => exact absurd rfl hne
  | cons p rest =>
      have hp := hg p (List.mem_cons_self _ _)
      have : w ∈ p.2.inclusive := hp.1 ▸ hdup
      obtain ⟨s, e⟩ := p
      simp only [commonBycatSamples]
      rw [if_pos this]

/-- The per-sample loop of one non-duplicate common-bycategory weight
succeeds and preserves the invariant (and emptiness). -/
theorem commonBycatSamples_ok (cat : String) (w : CWeight) (st : CfgState)
    (I : List CWeight) (cats : List String)
    (hg : GoodSt I cats st) (hnd : ¬ w ∈ I) (hcat : cat ∈ cats) :
    ∃ st', commonBycatSamples cat w st = .ok st' ∧ GoodSt I cats st'
      ∧ (st' = [] ↔ st = []) := by
  induction st with
  | nil =>
      refine ⟨[], rfl, ?_, by simp⟩
      intro p hp
      cases hp
  | cons p rest ih =>
      obtain ⟨s, e⟩ := p
      have hp := hg (s, e) (List.mem_cons_self _ _)
      have hgr : GoodSt I cats rest := fun q hq => hg q (List.mem_cons_of_mem _ hq)
      have hni : ¬ w ∈ e.inclusive := by rw [hp.1]; exact hnd
      have hk : cat ∈ keysOf e.bycategory := by rw [hp.2]; exact hcat
      obtain ⟨b, hb, hkb⟩ := appendBycat_mem w hk
      obtain ⟨st', hst', hg', _⟩ := ih hgr
      refine ⟨(s, { e with bycategory := b, is_split_bycat := true }) :: st', ?_, ?_, by simp⟩
      · simp only [commonBycatSamples]
        rw [if_neg hni, hb, hst']
      · intro q hq
        rcases List.mem_cons.mp hq with hq | hq
        · subst hq
          exact ⟨hp.1, hkb.trans hp.2⟩
        · exact hg' q hq

/-- One common-bycategory weight list containing a duplicate of the shared
inclusive list makes the loop fail with the duplicate error. -/
theorem commonBycatWeights_dup (avail : List String) (cat : String)
    (ws : List CWeight) (st : CfgState) (I : List CWeight) (cats : List String)
    (hg : GoodSt I cats st) (hne : st ≠ [])
    (hav : ∀ w ∈ ws, checkAvail avail w = true) (hcat : cat ∈ cats)
    (hdup : ∃ w ∈ ws, w ∈ I) :
    commonBycatWeights avail cat ws st = .error .duplicateCommonBycategory := by
  induction ws generalizing st with
  | nil => obtain ⟨w, hw, _⟩ := hdup; cases hw
  | cons w rest ih =>
      have hw : checkAvail avail w = true := hav w (List.mem_cons_self _ _)
      by_cases hdw : w ∈ I
      · rw [commonBycatWeights, if_pos hw,
            commonBycatSamples_dup cat w st I cats hg hne hdw]
      · obtain ⟨st', hst', hg', hlen⟩ :=
          commonBycatSamples_ok cat w st I cats hg hdw hcat
        rw [commonBycatWeights, if_pos hw, hst']
        have hne' : st' ≠ [] := fun h => hne (hlen.mp h)
        have hdup' : ∃ w' ∈ rest, w' ∈ I := by
          obtain ⟨w', hw', hwI⟩ := hdup
          rcases List.mem_cons.mp hw' with h | h
          · exact absurd (h ▸ hwI) hdw
          · exact ⟨w', h, hwI⟩
        exact ih st' hg' hne' (fun w' h => hav w' (List.mem_cons_of_mem _ h)) hdup'

/-- One duplicate-free, validated common-bycategory weight list succeeds
and preserves the invariant. -/
theorem commonBycatWeights_ok (avail : List String) (cat : String)
    (ws : List CWeight) (st : CfgState) (I : List CWeight) (cats : List String)
    (hg : GoodSt I cats st)
    (hav : ∀ w ∈ ws, checkAvail avail w = true) (hcat : cat ∈ cats)
    (hnd : ∀ w ∈ ws, ¬ w ∈ I) :
    ∃ st', commonBycatWeights avail cat ws st = .ok st' ∧ GoodSt I cats st'
      ∧ (st' = [] ↔ st = []) := by
  induction ws generalizing st with
  | nil => exact ⟨st, rfl, hg, Iff.rfl⟩
  | cons w rest ih =>
      have hw : checkAvail avail w = true := hav w (List.mem_cons_self _ _)
      obtain ⟨st1, hst1, hg1, hlen1⟩ :=
        commonBycatSamples_ok cat w st I cats hg (hnd w (List.mem_cons_self _ _)) hcat
      obtain ⟨st2, hst2, hg2, hlen2⟩ :=
        ih st1 hg1 (fun w' h => hav w' (List.mem_cons_of_mem _ h))
          (fun w' h => hnd w' (List.mem_cons_of_mem _ h))
      refine ⟨st2, ?_, hg2, hlen2.trans hlen1⟩
      rw [commonBycatWeights, if_pos hw, hst1]
      exact hst2

/-- The whole common-bycategory phase fails with the duplicate error as
soon as any of its category lists contains a weight of the shared inclusive
list, provided all names are available and all categories known. -/
theorem applyCommonBycat_dup (avail : List String)
    (bc : List (String × List CWeight)) (st : CfgState)
    (I : List CWeight) (cats : List String)
    (hg : GoodSt I cats st) (hne : st ≠ [])
    (hav : ∀ c' ws' w', (c', ws') ∈ bc → w' ∈ ws' → checkAvail avail w' = true)
    (hcats : ∀ c' ws', (c', ws') ∈ bc → c' ∈ cats)
    (hdup : ∃ c' ws' w', (c', ws') ∈ bc ∧ w' ∈ ws' ∧ w' ∈ I) :
    applyCommonBycat avail bc st = .error .duplicateCommonBycategory := by
  induction bc generalizing st with
  | nil => obtain ⟨c', ws', w', h, _, _⟩ := hdup; cases h
  | cons p rest ih =>
      obtain ⟨cat0, ws0⟩ := p
      have hav0 : ∀ w ∈ ws0, checkAvail avail w = true :=
        fun w h => hav cat0 ws0 w (List.mem_cons_self _ _) h
      have hcat0 : cat0 ∈ cats := hcats cat0 ws0 (List.mem_cons_self _ _)
      by_cases hd0 : ∃ w ∈ ws0, w ∈ I
      · rw [applyCommonBycat,
            commonBycatWeights_dup avail cat0 ws0 st I cats hg hne hav0 hcat0 hd0]
      · have hnd0 : ∀ w ∈ ws0, ¬ w ∈ I := by
          intro w hw hwI
          exact hd0 ⟨w, hw, hwI⟩
        obtain ⟨st', hst', hg', hlen⟩ :=
          commonBycatWeights_ok avail cat0 ws0 st I cats hg hav0 hcat0 hnd0
        rw [applyCommonBycat, hst']
        have hne' : st' ≠ [] := fun h => hne (hlen.mp h)
        have hdup' : ∃ c' ws' w', (c', ws') ∈ rest ∧ w' ∈ ws' ∧ w' ∈ I := by
          obtain ⟨c', ws', w', hmem, hw', hwI⟩ := hdup
          rcases List.mem_cons.mp hmem with h | h
          · exfalso
            apply hd0
            refine ⟨w', ?_, hwI⟩
            have : ws' = ws0 := congrArg Prod.snd h
            exact this ▸ hw'
          · exact ⟨c', ws', w', h, hw', hwI⟩
        exact ih st' hg' hne'
          (fun c' ws' w' h hw => hav c' ws' w' (List.mem_cons_of_mem _ h) hw)
          (fun c' ws' h => hcats c' ws' (List.mem_cons_of_mem _ h)) hdup'

/-- The state left by the common-inclusive phase on the fresh configuration
satisfies the invariant. -/
theorem goodSt_after_inclusive (samples cats : List String) (I : List CWeight) :
    GoodSt I cats ((initialWeightsConfig samples cats).map
      (fun p => (p.1, { p.2 with inclusive := p.2.inclusive ++ I }))) := by
  intro p hp
  simp only [initialWeightsConfig, List.map_map, List.mem_map] at hp
  obtain ⟨s, hs, rfl⟩ := hp
  have hid : (Prod.fst ∘ fun c : String => (c, ([] : List CWeight))) = id := rfl
  constructor
  · simp
  · simp [keysOf, List.map_map, hid]

/-- C4: resolving a weights configuration that places the same weight name
in `common.inclusive` and in some category list of `common.bycategory`
fails, for any non-empty sample list and any otherwise valid configuration
(all string names available, all configured categories known), with the
duplicate error of the common-bycategory check — before any chunk is
processed, since `load_weights_config` runs during `Configurator.__init__`. -/
theorem c4_duplicate_rejected (avail samples cats : List String)
    (com : CommonWeightsCfg) (bc : List (String × List CWeight))
    (bys : Option (List (String × SampleOverlayCfg)))
    (name cat : String) (ws : List CWeight)
    (hs : samples ≠ [])
    (hbc : com.bycategory = some bc)
    (hia : ∀ w ∈ com.inclusive, checkAvail avail w = true)
    (hba : ∀ p ∈ bc, ∀ w' ∈ (p : String × List CWeight).2, checkAvail avail w' = true)
    (hcats : ∀ p ∈ bc, (p : String × List CWeight).1 ∈ cats)
    (hdupI : CWeight.str name ∈ com.inclusive)
    (hbcmem : (cat, ws) ∈ bc) (hdupC : CWeight.str name ∈ ws) :
    load_weights_config avail samples cats ⟨some com, bys⟩ =
      .error .duplicateCommonBycategory := by
  have hba' : ∀ c' ws' w', (c', ws') ∈ bc → w' ∈ ws' → checkAvail avail w' = true :=
    fun c' ws' w' h hw => hba (c', ws') h w' hw
  have hcats' : ∀ c' ws', (c', ws') ∈ bc → c' ∈ cats :=
    fun c' ws' h => hcats (c', ws') h
  have hg := goodSt_after_inclusive samples cats com.inclusive
  have hne : (initialWeightsConfig samples cats).map
      (fun p => (p.1, { p.2 with inclusive := p.2.inclusive ++ com.inclusive })) ≠ [] := by
    simp [initialWeightsConfig, hs]
  have hdup : ∃ c' ws' w', (c', ws') ∈ bc ∧ w' ∈ ws' ∧ w' ∈ com.inclusive :=
    ⟨cat, ws, CWeight.str name, hbcmem, hdupC, hdupI⟩
  simp only [load_weights_config,
             applyCommonInclusive_ok avail com.inclusive hia, hbc,
             applyCommonBycat_dup avail bc _ com.inclusive cats hg hne hba' hcats' hdup]

/-- C4 witness: `pileup` placed in both `common.inclusive` and
`common.bycategory["SR"]` is rejected with the duplicate error. -/
theorem c4_witness :
    (["ttH"] : List String) ≠ []
    ∧ CWeight.str "pileup" ∈ [CWeight.str "pileup"]
    ∧ ("SR", [CWeight.str "pileup"]) ∈ [("SR", [CWeight.str "pileup"])]
    ∧ load_weights_config ["pileup"] ["ttH"] ["SR"]
        ⟨some ⟨[CWeight.str "pileup"], some [("SR", [CWeight.str "pileup"])]⟩, none⟩ =
        .error .duplicateCommonBycategory :=
  ⟨by decide, by decide, by decide,
   c4_duplicate_rejected ["pileup"] ["ttH"] ["SR"]
     ⟨[CWeight.str "pileup"], some [("SR", [CWeight.str "pileup"])]⟩
     [("SR", [CWeight.str "pileup"])] none "pileup" "SR" [CWeight.str "pileup"]
     (by decide) rfl (by decide) (by decide) (by decide) (by decide) (by decide)
     (by decide)⟩

/-!
Claim C6: unknown-name rejection at resolution time.
-/

/-- A failing availability check comes from a string name outside the
available set (custom objects always pass). -/
theorem checkAvail_str_false {avail : List String} {w : CWeight}
    (h : ¬ checkAvail avail w = true) :
    ∃ m, w = CWeight.str m ∧ ¬ m ∈ avail := by
  cases w with
  | str n =>
      refine ⟨n, rfl, ?_⟩
      intro hm
      exact h (by simp [checkAvail, hm])
  | custom n => exact absurd rfl h

/-- The printed unknown-weight line for a string name. -/
theorem unknownMsg_eq (name : String) :
    unknownWeightMsg (CWeight.str name) =
      "Weight " ++ name ++ " not available in the workflow" := rfl

/-- The common-inclusive phase fails with the unknown-weight error when the
list contains an unavailable string name (and no other unavailable name
precedes it). -/
theorem applyCommonInclusive_unknown (avail : List String) (name : String)
    (hna : ¬ name ∈ avail) :
    ∀ (ws : List CWeight) (st : CfgState),
      CWeight.str name ∈ ws →
      (∀ m, CWeight.str m ∈ ws → m ∈ avail ∨ m = name) →
      applyCommonInclusive avail ws st =
        .error (.wrongWeightConfiguration
          ("Weight " ++ name ++ " not available in the workflow")) := by
  intro ws
  induction ws with
  | nil =>
      intro st hmem _
      cases hmem
  | cons w rest ih =>
      intro st hmem hoth
      by_cases hw : checkAvail avail w = true
      · rw [applyCommonInclusive, if_pos hw]
        apply ih
        · rcases List.mem_cons.mp hmem with h | h
          · exfalso
            rw [← h] at hw
            simp [checkAvail] at hw
            exact hna hw
          · exact h
        · exact fun m hm => hoth m (List.mem_cons_of_mem _ hm)
      · obtain ⟨m, rfl, hm⟩ := checkAvail_str_false hw
        have hmn : m = name := (hoth m (List.mem_cons_self _ _)).resolve_left hm
        subst hmn
        rw [applyCommonInclusive, if_neg hw]
        rfl

/-- One common-bycategory weight list containing the unavailable string
name fails with the unknown-weight error, provided its other names are
available and none duplicates the inclusive list. -/
theorem commonBycatWeights_unknown (avail : List String) (cat : String)
    (I : List CWeight) (cats : List String) (name : String)
    (hcat : cat ∈ cats) (hna : ¬ name ∈ avail) :
    ∀ (ws : List CWeight) (st : CfgState),
      GoodSt I cats st →
      CWeight.str name ∈ ws →
      (∀ m, CWeight.str m ∈ ws → m ∈ avail ∨ m = name) →
      (∀ w ∈ ws, ¬ w ∈ I) →
      commonBycatWeights avail cat ws st =
        .error (.wrongWeightConfiguration
          ("Weight " ++ name ++ " not available in the workflow")) := by
  intro ws
  induction ws with
  | nil =>
      intro st _ hmem _ _
      cases hmem
  | cons w rest ih =>
      intro st hg hmem hoth hnd
      by_cases hw : checkAvail avail w = true
      · obtain ⟨st', hst', hg', _⟩ :=
          commonBycatSamples_ok cat w st I cats hg (hnd w (List.mem_cons_self _ _)) hcat
        rw [commonBycatWeights, if_pos hw, hst']
        have hmem' : CWeight.str name ∈ rest := by
          rcases List.mem_cons.mp hmem with h | h
          · exfalso
            rw [← h] at hw
            simp [checkAvail] at hw
            exact hna hw
          · exact h
        exact ih st' hg' hmem' (fun m hm => hoth m (List.mem_cons_of_mem _ hm))
          (fun w' hw' => hnd w' (List.mem_cons_of_mem _ hw'))
      · obtain ⟨m, rfl, hm⟩ := checkAvail_str_false hw
        have hmn : m = name := (hoth m (List.mem_cons_self _ _)).resolve_left hm
        subst hmn
        rw [commonBycatWeights, if_neg hw]
        rfl

/-- The common-bycategory phase fails with the unknown-weight error when
some category list contains the unavailable string name. -/
theorem applyCommonBycat_unknown (avail : List String)
    (I : List CWeight) (cats : List String) (name : String)
    (hna : ¬ name ∈ avail) :
    ∀ (bc : List (String × List CWeight)) (st : CfgState),
      GoodSt I cats st →
      (∀ p ∈ bc, (p : String × List CWeight).1 ∈ cats) →
      (∀ p ∈ bc, ∀ m, CWeight.str m ∈ (p : String × List CWeight).2 →
        m ∈ avail ∨ m = name) →
      (∀ p ∈ bc, ∀ w' ∈ (p : String × List CWeight).2, ¬ w' ∈ I) →
      (∃ c' ws', (c', ws') ∈ bc ∧ CWeight.str name ∈ ws') →
      applyCommonBycat avail bc st =
        .error (.wrongWeightConfiguration
          ("Weight " ++ name ++ " not available in the workflow")) := by
  intro bc
  induction bc with
  | nil =>
      intro st _ _ _ _ hmem
      obtain ⟨c', ws', h, _⟩ := hmem
      cases h
  | cons p rest ih =>
      intro st hg hcats hoth hnd hmem
      obtain ⟨cat0, ws0⟩ := p
      have hcat0 : cat0 ∈ cats := hcats (cat0, ws0) (List.mem_cons_self _ _)
      by_cases h0 : CWeight.str name ∈ ws0
      · rw [applyCommonBycat,
            commonBycatWeights_unknown avail cat0 I cats name hcat0 hna ws0 st hg h0
              (fun m hm => hoth (cat0, ws0) (List.mem_cons_self _ _) m hm)
              (fun w hw => hnd (cat0, ws0) (List.mem_cons_self _ _) w hw)]
      · have hav0 : ∀ w ∈ ws0, checkAvail avail w = true := by
          intro w hw
          cases w with
          | str m =>
              rcases hoth (cat0, ws0) (List.mem_cons_self _ _) m hw with h | h
              · simp [checkAvail, h]
              · exact absurd (h ▸ hw) h0
          | custom m => rfl
        obtain ⟨st', hst', hg', _⟩ :=
          commonBycatWeights_ok avail cat0 ws0 st I cats hg hav0 hcat0
            (fun w hw => hnd (cat0, ws0) (List.mem_cons_self _ _) w hw)
        rw [applyCommonBycat, hst']
        have hmem' : ∃ c' ws', (c', ws') ∈ rest ∧ CWeight.str name ∈ ws' := by
          obtain ⟨c', ws', hm, hn⟩ := hmem
          rcases List.mem_cons.mp hm with h | h
          · exfalso
            have hws : ws' = ws0 := congrArg Prod.snd h
            exact h0 (hws ▸ hn)
          · exact ⟨c', ws', h, hn⟩
        exact ih st' hg' (fun q hq => hcats q (List.mem_cons_of_mem _ hq))
          (fun q hq => hoth q (List.mem_cons_of_mem _ hq))
          (fun q hq => hnd q (List.mem_cons_of_mem _ hq)) hmem'

/-- The freshly initialised per-sample `bycategory` dictionary has exactly
the known categories as keys. -/
theorem keysOf_catsInit (cats : List String) :
    keysOf (cats.map (fun c => (c, ([] : List CWeight)))) = cats := by
  have hid : (Prod.fst ∘ fun c : String => (c, ([] : List CWeight))) = id := rfl
  simp [keysOf, List.map_map, hid]

/-- Looking up a known sample in the freshly initialised
`self.weights_config` yields the empty per-sample assignment. -/
theorem alookup_initial (samples cats : List String) (s : String)
    (hs : s ∈ samples) :
    alookup (initialWeightsConfig samples cats) s =
      some ⟨[], cats.map (fun c => (c, [])), false⟩ := by
  induction samples with
  | nil => cases hs
  | cons a rest ih =>
      by_cases h : a = s
      · simp [initialWeightsConfig, alookup, h]
      · have hmem : s ∈ rest := by
          rcases List.mem_cons.mp hs with h' | h'
          · exact absurd h'.symm h
          · exact h'
        simp only [initialWeightsConfig, List.map_cons, alookup, if_neg h]
        exact ih hmem

/-- The bysample-inclusive loop fails with the unknown-weight error when
its list contains the unavailable string name. -/
theorem bysampleInclusive_unknown (avail : List String) (name : String)
    (hna : ¬ name ∈ avail) :
    ∀ (ws : List CWeight) (e : SampleWeights),
      CWeight.str name ∈ ws →
      (∀ m, CWeight.str m ∈ ws → m ∈ avail ∨ m = name) →
      bysampleInclusive avail ws e =
        .error (.wrongWeightConfiguration
          ("Weight " ++ name ++ " not available in the workflow")) := by
  intro ws
  induction ws with
  | nil =>
      intro e hmem _
      cases hmem
  | cons w rest ih =>
      intro e hmem hoth
      by_cases hw : checkAvail avail w = true
      · rw [bysampleInclusive, if_pos hw]
        apply ih
        · rcases List.mem_cons.mp hmem with h | h
          · exfalso
            rw [← h] at hw
            simp [checkAvail] at hw
            exact hna hw
          · exact h
        · exact fun m hm => hoth m (List.mem_cons_of_mem _ hm)
      · obtain ⟨m, rfl, hm⟩ := checkAvail_str_false hw
        have hmn : m = name := (hoth m (List.mem_cons_self _ _)).resolve_left hm
        subst hmn
        rw [bysampleInclusive, if_neg hw]
        rfl

/-- The bysample-bycategory loop for one category fails with the
unknown-weight error when its list contains the unavailable string name
(sample entry still in its initial duplicate-free shape). -/
theorem bysampleBycatWeights_unknown (avail : List String) (cat : String)
    (cats : List String) (name : String)
    (hcat : cat ∈ cats) (hna : ¬ name ∈ avail) :
    ∀ (ws : List CWeight) (e : SampleWeights),
      e.inclusive = [] → keysOf e.bycategory = cats →
      CWeight.str name ∈ ws →
      (∀ m, CWeight.str m ∈ ws → m ∈ avail ∨ m = name) →
      bysampleBycatWeights avail cat ws e =
        .error (.wrongWeightConfiguration
          ("Weight " ++ name ++ " not available in the workflow")) := by
  intro ws
  induction ws with
  | nil =>
      intro e _ _ hmem _
      cases hmem
  | cons w rest ih =>
      intro e hincl hkeys hmem hoth
      by_cases hw : checkAvail avail w = true
      · have hni : ¬ w ∈ e.inclusive := by
          rw [hincl]
          exact List.not_mem_nil w
        have hk : cat ∈ keysOf e.bycategory := by rw [hkeys]; exact hcat
        obtain ⟨b, hb, hkb⟩ := appendBycat_mem w hk
        rw [bysampleBycatWeights, if_pos hw, if_neg hni, hb]
        have hmem' : CWeight.str name ∈ rest := by
          rcases List.mem_cons.mp hmem with h | h
          · exfalso
            rw [← h] at hw
            simp [checkAvail] at hw
            exact hna hw
          · exact h
        exact ih { e with bycategory := b, is_split_bycat := true } hincl
          (hkb.trans hkeys) hmem'
          (fun m hm => hoth m (List.mem_cons_of_mem _ hm))
      · obtain ⟨m, rfl, hm⟩ := checkAvail_str_false hw
        have hmn : m = name := (hoth m (List.mem_cons_self _ _)).resolve_left hm
        subst hmn
        rw [bysampleBycatWeights, if_neg hw]
        rfl

/-- The bysample-bycategory loop for one category of validated weights
succeeds on an entry with an empty inclusive list, preserving that shape. -/
theorem bysampleBycatWeights_ok_inv (avail : List String) (cat : String)
    (cats : List String) (hcat : cat ∈ cats) :
    ∀ (ws : List CWeight) (e : SampleWeights),
      e.inclusive = [] → keysOf e.bycategory = cats →
      (∀ w ∈ ws, checkAvail avail w = true) →
      ∃ e', bysampleBycatWeights avail cat ws e = .ok e'
        ∧ e'.inclusive = [] ∧ keysOf e'.bycategory = cats := by
  intro ws
  induction ws with
  | nil =>
      intro e hincl hkeys _
      exact ⟨e, rfl, hincl, hkeys⟩
  | cons w rest ih =>
      intro e hincl hkeys hav
      have hw : checkAvail avail w = true := hav w (List.mem_cons_self _ _)
      have hni : ¬ w ∈ e.inclusive := by
        rw [hincl]
        exact List.not_mem_nil w
      have hk : cat ∈ keysOf e.bycategory := by rw [hkeys]; exact hcat
      obtain ⟨b, hb, hkb⟩ := appendBycat_mem w hk
      obtain ⟨e', he', hincl', hkeys'⟩ :=
        ih { e with bycategory := b, is_split_bycat := true } hincl
          (hkb.trans hkeys) (fun w' h => hav w' (List.mem_cons_of_mem _ h))
      refine ⟨e', ?_, hincl', hkeys'⟩
      rw [bysampleBycatWeights, if_pos hw, if_neg hni, hb]
      exact he'

/-- A whole bysample-bycategory overlay containing the unavailable string
name in some category list fails with the unknown-weight error. -/
theorem applyOverlayBycat_unknown (avail : List String) (cats : List String)
    (name : String) (hna : ¬ name ∈ avail) :
    ∀ (bl : List (String × List CWeight)) (e : SampleWeights),
      e.inclusive = [] → keysOf e.bycategory = cats →
      (∀ p ∈ bl, (p : String × List CWeight).1 ∈ cats) →
      (∀ p ∈ bl, ∀ m, CWeight.str m ∈ (p : String × List CWeight).2 →
        m ∈ avail ∨ m = name) →
      (∃ c' ws', (c', ws') ∈ bl ∧ CWeight.str name ∈ ws') →
      applyOverlayBycat avail bl e =
        .error (.wrongWeightConfiguration
          ("Weight " ++ name ++ " not available in the workflow")) := by
  intro bl
  induction bl with
  | nil =>
      intro e _ _ _ _ hmem
      obtain ⟨c', ws', h, _⟩ := hmem
      cases h
  | cons p rest ih =>
      intro e hincl hkeys hcats hoth hmem
      obtain ⟨cat0, ws0⟩ := p
      have hcat0 : cat0 ∈ cats := hcats (cat0, ws0) (List.mem_cons_self _ _)
      by_cases h0 : CWeight.str name ∈ ws0
      · rw [applyOverlayBycat,
            bysampleBycatWeights_unknown avail cat0 cats name hcat0 hna ws0 e hincl
              hkeys h0 (fun m hm => hoth (cat0, ws0) (List.mem_cons_self _ _) m hm)]
      · have hav0 : ∀ w ∈ ws0, checkAvail avail w = true := by
          intro w hw
          cases w with
          | str m =>
              rcases hoth (cat0, ws0) (List.mem_cons_self _ _) m hw with h | h
              · simp [checkAvail, h]
              · exact absurd (h ▸ hw) h0
          | custom m => rfl
        obtain ⟨e', he', hincl', hkeys'⟩ :=
          bysampleBycatWeights_ok_inv avail cat0 cats hcat0 ws0 e hincl hkeys hav0
        rw [applyOverlayBycat, he']
        have hmem' : ∃ c' ws', (c', ws') ∈ rest ∧ CWeight.str name ∈ ws' := by
          obtain ⟨c', ws', hm, hn⟩ := hmem
          rcases List.mem_cons.mp hm with h | h
          · exfalso
            have hws : ws' = ws0 := congrArg Prod.snd h
            exact h0 (hws ▸ hn)
          · exact ⟨c', ws', h, hn⟩
        exact ih e' hincl' hkeys' (fun q hq => hcats q (List.mem_cons_of_mem _ hq))
          (fun q hq => hoth q (List.mem_cons_of_mem _ hq)) hmem'

/-- C6: a configuration listing a string weight name outside the available
set fails at resolution time with the unknown-weight error (the printed
line pins down which check fired), wherever the name appears: in
`common.inclusive` (first conjunct), in a `common.bycategory` list (second
conjunct, assuming the rest of the common layer is valid), in a
`bysample...inclusive` list, or in a `bysample...bycategory` list (third
and fourth conjuncts, for a minimal common layer).  `load_weights_config`
runs inside `Configurator.__init__`, before any chunk is processed. -/
theorem c6_unknown_rejected (avail samples cats : List String) (name : String)
    (hna : ¬ name ∈ avail) :
    (∀ (com : CommonWeightsCfg) (bys : Option (List (String × SampleOverlayCfg))),
      CWeight.str name ∈ com.inclusive →
      (∀ m, CWeight.str m ∈ com.inclusive → m ∈ avail ∨ m = name) →
      load_weights_config avail samples cats ⟨some com, bys⟩ =
        .error (.wrongWeightConfiguration
          ("Weight " ++ name ++ " not available in the workflow")))
    ∧ (∀ (com : CommonWeightsCfg) (bc : List (String × List CWeight))
        (bys : Option (List (String × SampleOverlayCfg))),
      com.bycategory = some bc →
      (∀ w ∈ com.inclusive, checkAvail avail w = true) →
      (∀ p ∈ bc, (p : String × List CWeight).1 ∈ cats) →
      (∀ p ∈ bc, ∀ m, CWeight.str m ∈ (p : String × List CWeight).2 →
        m ∈ avail ∨ m = name) →
      (∀ p ∈ bc, ∀ w' ∈ (p : String × List CWeight).2, ¬ w' ∈ com.inclusive) →
      (∃ c' ws', (c', ws') ∈ bc ∧ CWeight.str name ∈ ws') →
      load_weights_config avail samples cats ⟨some com, bys⟩ =
        .error (.wrongWeightConfiguration
          ("Weight " ++ name ++ " not available in the workflow")))
    ∧ (∀ (s : String) (ws : List CWeight),
      s ∈ samples → CWeight.str name ∈ ws →
      (∀ m, CWeight.str m ∈ ws → m ∈ avail ∨ m = name) →
      load_weights_config avail samples cats
          ⟨some ⟨[], none⟩, some [(s, ⟨some ws, none⟩)]⟩ =
        .error (.wrongWeightConfiguration
          ("Weight " ++ name ++ " not available in the workflow")))
    ∧ (∀ (s : String) (bl : List (String × List CWeight)),
      s ∈ samples →
      (∀ p ∈ bl, (p : String × List CWeight).1 ∈ cats) →
      (∀ p ∈ bl, ∀ m, CWeight.str m ∈ (p : String × List CWeight).2 →
        m ∈ avail ∨ m = name) →
      (∃ c' ws', (c', ws') ∈ bl ∧ CWeight.str name ∈ ws') →
      load_weights_config avail samples cats
          ⟨some ⟨[], none⟩, some [(s, ⟨none, some bl⟩)]⟩ =
        .error (.wrongWeightConfiguration
          ("Weight " ++ name ++ " not available in the workflow"))) := by
  refine ⟨?_, ?_, ?_, ?_⟩
  · intro com bys hmem hoth
    simp only [load_weights_config,
      applyCommonInclusive_unknown avail name hna com.inclusive
        (initialWeightsConfig samples cats) hmem hoth]
  · intro com bc bys hbc hia hcats hoth hnd hmem
    have hg := goodSt_after_inclusive samples cats com.inclusive
    have hnd' : ∀ p ∈ bc, ∀ w' ∈ (p : String × List CWeight).2,
        ¬ w' ∈ com.inclusive := hnd
    simp only [load_weights_config,
      applyCommonInclusive_ok avail com.inclusive hia, hbc,
      applyCommonBycat_unknown avail com.inclusive cats name hna bc _ hg hcats hoth
        hnd' hmem]
  · intro s ws hs hmem hoth
    have hlook := alookup_initial samples cats s hs
    have hrw := bysampleInclusive_unknown avail name hna ws
      ⟨[], cats.map (fun c => (c, [])), false⟩ hmem hoth
    simp only [load_weights_config, applyCommonInclusive, applyBysample, hlook,
      applyOverlay, hrw]
    simp [hs]
  · intro s bl hs hcats hoth hmem
    have hlook := alookup_initial samples cats s hs
    have hrw := applyOverlayBycat_unknown avail cats name hna bl
      ⟨[], cats.map (fun c => (c, [])), false⟩ rfl (keysOf_catsInit cats)
      hcats hoth hmem
    simp only [load_weights_config, applyCommonInclusive, applyBysample, hlook,
      applyOverlay, hrw]
    simp [hs]

/-- C6 witness: the four conjuncts applied to concrete configurations
listing `sf_does_not_exist`. -/
theorem c6_witness :
    load_weights_config ["pileup"] ["ttH"] ["SR"]
        ⟨some ⟨[CWeight.str "sf_does_not_exist"], none⟩, none⟩ =
      .error (.wrongWeightConfiguration
        "Weight sf_does_not_exist not available in the workflow")
    ∧ load_weights_config ["pileup"] ["ttH"] ["SR"]
        ⟨some ⟨[], some [("SR", [CWeight.str "sf_does_not_exist"])]⟩, none⟩ =
      .error (.wrongWeightConfiguration
        "Weight sf_does_not_exist not available in the workflow")
    ∧ load_weights_config ["pileup"] ["ttH"] ["SR"]
        ⟨some ⟨[], none⟩, some [("ttH", ⟨some [CWeight.str "sf_does_not_exist"], none⟩)]⟩ =
      .error (.wrongWeightConfiguration
        "Weight sf_does_not_exist not available in the workflow")
    ∧ load_weights_config ["pileup"] ["ttH"] ["SR"]
        ⟨some ⟨[], none⟩,
         some [("ttH", ⟨none, some [("SR", [CWeight.str "sf_does_not_exist"])]⟩)]⟩ =
      .error (.wrongWeightConfiguration
        "Weight sf_does_not_exist not available in the workflow") :=
  ⟨(c6_unknown_rejected ["pileup"] ["ttH"] ["SR"] "sf_does_not_exist" (by decide)).1
     ⟨[CWeight.str "sf_does_not_exist"], none⟩ none (by decide)
     (by
       intro m hm
       simp at hm
       exact Or.inr hm),
   (c6_unknown_rejected ["pileup"] ["ttH"] ["SR"] "sf_does_not_exist" (by decide)).2.1
     ⟨[], some [("SR", [CWeight.str "sf_does_not_exist"])]⟩
     [("SR", [CWeight.str "sf_does_not_exist"])] none rfl (by decide) (by decide)
     (by
       intro p hp m hm
       simp at hp
       subst hp
       simp at hm
       exact Or.inr hm)
     (by decide)
     ⟨"SR", [CWeight.str "sf_does_not_exist"], by decide, by decide⟩,
   (c6_unknown_rejected ["pileup"] ["ttH"] ["SR"] "sf_does_not_exist" (by decide)).2.2.1
     "ttH" [CWeight.str "sf_does_not_exist"] (by decide) (by decide)
     (by
       intro m hm
       simp at hm
       exact Or.inr hm),
   (c6_unknown_rejected ["pileup"] ["ttH"] ["SR"] "sf_does_not_exist" (by decide)).2.2.2
     "ttH" [("SR", [CWeight.str "sf_does_not_exist"])] (by decide) (by decide)
     (by
       intro p hp m hm
       simp at hp
       subst hp
       simp at hm
       exact Or.inr hm)
     ⟨"SR", [CWeight.str "sf_does_not_exist"], by decide, by decide⟩⟩

/-!
Claim C7: each weight is computed at most once per chunk.
-/

/-- Appending an entry to an association list preserves lookups and adds
the new key. -/
theorem alookup_append_isSome {α : Type} (cache : List (String × α))
    (k n : String) (v : α)
    (h : (alookup cache n).isSome ∨ n = k) :
    (alookup (cache ++ [(k, v)]) n).isSome := by
  induction cache with
  | nil =>
      rcases h with h | h
      · simp [alookup] at h
      · simp [alookup, h.symm]
  | cons p rest ih =>
      obtain ⟨k', v'⟩ := p
      by_cases hk : k' = n
      · simp [alookup, hk]
      · simp only [List.cons_append, alookup, if_neg hk]
        apply ih
        rcases h with h | h
        · left
          simpa [alookup, if_neg hk] using h
        · exact Or.inr h

/-- The cache-or-compute core preserves the cache/log invariant: a compute
is only triggered (and logged) for a key absent from the cache, and the
key is cached immediately. -/
theorem installCached_inv (key : String) (result : List WTuple)
    (wobj : Weights) (cache : Cache) (log : List String)
    (hInv : CacheInv cache log) :
    CacheInv (installCached key result wobj cache log).2.1
      (installCached key result wobj cache log).2.2.1 := by
  by_cases h : (alookup cache key).isSome
  · simpa [installCached, h] using hInv
  · have hkey : ¬ key ∈ log := fun hk => h (hInv.2 key hk)
    constructor
    · intro n
      simp only [installCached, if_neg h]
      rw [List.count_append]
      by_cases hn : n = key
      · subst hn
        have h0 : log.count n = 0 := by
          rw [List.count_eq_zero]
          exact hkey
        simp [h0]
      · have h1 : List.count n [key] = 0 := by
          rw [List.count_eq_zero]
          simp [hn]
        rw [h1]
        simpa using hInv.1 n
    · intro n hn
      simp only [installCached, if_neg h] at hn ⊢
      apply alookup_append_isSome
      rw [List.mem_append] at hn
      rcases hn with hn | hn
      · exact Or.inl (hInv.2 n hn)
      · simp at hn
        exact Or.inr hn

/-- One `__add_weight` call preserves the cache/log invariant. -/
theorem addWeightStep_inv (compute : String → List WTuple) (w : WItem)
    (wobj : Weights) (cache : Cache) (log : List String)
    (w' : Weights) (cache' : Cache) (log' : List String)
    (o : Option (List String))
    (h : addWeightStep compute w wobj cache log = (w', cache', log', o))
    (hInv : CacheInv cache log) : CacheInv cache' log' := by
  cases w with
  | str name =>
      by_cases ha : name ∈ availableWeights
      · have := installCached_inv name (compute name) wobj cache log hInv
        simp only [addWeightStep, if_pos ha, Prod.mk.injEq] at h
        rw [← h.2.1, ← h.2.2.1]
        exact this
      · simp only [addWeightStep, if_neg ha, Prod.mk.injEq] at h
        rw [← h.2.1, ← h.2.2.1]
        exact hInv
  | custom name result =>
      have := installCached_inv name result wobj cache log hInv
      simp only [addWeightStep, Prod.mk.injEq] at h
      rw [← h.2.1, ← h.2.2.1]
      exact this

/-- A whole weight-list loop of the constructor preserves the cache/log
invariant. -/
theorem processItems_inv (compute : String → List WTuple) :
    ∀ (items : List WItem) (wobj : Weights) (cache : Cache)
      (log mods : List String)
      (res : Weights × Cache × List String × List String),
      processItems compute items wobj cache log mods = .ok res →
      CacheInv cache log → CacheInv res.2.1 res.2.2.1 := by
  intro items
  induction items with
  | nil =>
      intro wobj cache log mods res hres hInv
      simp only [processItems, Except.ok.injEq] at hres
      rw [← hres]
      exact hInv
  | cons w rest ih =>
      intro wobj cache log mods res hres hInv
      rcases hstep : addWeightStep compute w wobj cache log with ⟨w', c', l', o⟩
      cases o with
      | none =>
          rw [processItems, hstep] at hres
          simp at hres
      | some installed =>
          rw [processItems, hstep] at hres
          exact ih w' c' l' (mods ++ installed) res hres
            (addWeightStep_inv compute w wobj cache log w' c' l' _ hstep hInv)

/-- The category loop of the constructor preserves the cache/log
invariant (the cache is shared across categories). -/
theorem processCats_inv (compute : String → List WTuple) (size : Nat) :
    ∀ (cats : List (String × List WItem)) (cache : Cache) (log : List String)
      (res : List (String × Weights × List String) × Cache × List String),
      processCats compute size cats cache log = .ok res →
      CacheInv cache log → CacheInv res.2.1 res.2.2 := by
  intro cats
  induction cats with
  | nil =>
      intro cache log res hres hInv
      simp only [processCats, Except.ok.injEq] at hres
      rw [← hres]
      exact hInv
  | cons p rest ih =>
      intro cache log res hres hInv
      obtain ⟨cat, ws⟩ := p
      by_cases hws : ws = []
      · rw [processCats, if_pos hws] at hres
        exact ih cache log res hres hInv
      · rw [processCats, if_neg hws] at hres
        rcases h1 : processItems compute ws (Weights.init size) cache log [] with e | r1
        · rw [h1] at hres
          simp at hres
        · obtain ⟨wcat, cache', log', mods⟩ := r1
          simp only [h1] at hres
          have hInv' : CacheInv cache' log' :=
            processItems_inv compute ws (Weights.init size) cache log []
              (wcat, cache', log', mods) h1 hInv
          rcases h2 : processCats compute size rest cache' log' with e | r2
          · simp only [h2] at hres
            simp at hres
          · obtain ⟨restList, cache'', log''⟩ := r2
            simp only [h2] at hres
            have := ih cache' log' (restList, cache'', log'') h2 hInv'
            simp only [Except.ok.injEq] at hres
            rw [← hres]
            exact this

/-- C7: during one construction of the accumulator, each weight name
(string or custom) appears at most once in the computation log — i.e. its
compute function is invoked at most once per chunk, even when the name is
referenced by the inclusive list and by several category lists; later
occurrences are served from `_weightsCache`. -/
theorem c7_single_computation (compute : String → List WTuple)
    (conf : WeightsConf) (size : Nat) (st : WMState) (log : List String)
    (h : initWM compute conf size = .ok (st, log)) :
    ∀ n : String, log.count n ≤ 1 := by
  have hInv0 : CacheInv [] [] := by
    constructor
    · intro n
      simp
    · intro n hn
      cases hn
  rw [initWM] at h
  rcases h1 : processItems compute conf.inclusive (Weights.init size) [] [] [] with e | r1
  · rw [h1] at h
    simp at h
  · obtain ⟨wIncl, cache1, log1, modsIncl⟩ := r1
    simp only [h1] at h
    have hInv1 : CacheInv cache1 log1 :=
      processItems_inv compute conf.inclusive (Weights.init size) [] [] []
        (wIncl, cache1, log1, modsIncl) h1 hInv0
    by_cases hsplit : conf.is_split_bycat
    · rw [if_pos hsplit] at h
      rcases h2 : processCats compute size conf.bycategory cache1 log1 with e | r2
      · rw [h2] at h
        simp at h
      · obtain ⟨bycatList, cache2, log2⟩ := r2
        simp only [h2] at h
        have hInv2 : CacheInv cache2 log2 :=
          processCats_inv compute size conf.bycategory cache1 log1
            (bycatList, cache2, log2) h2 hInv1
        simp only [Except.ok.injEq, Prod.mk.injEq] at h
        intro n
        rw [← h.2]
        exact hInv2.1 n
    · rw [if_neg hsplit] at h
      simp only [Except.ok.injEq, Prod.mk.injEq] at h
      intro n
      rw [← h.2]
      exact hInv1.1 n

/-- C7 witness: `pileup` referenced inclusively and in two categories is
computed exactly once (the final log is `["pileup"]`). -/
theorem c7_witness :
    initWM exCompute conf7 1 = .ok (st7, ["pileup"])
    ∧ List.count "pileup" ["pileup"] ≤ 1 :=
  ⟨by decide,
   c7_single_computation exCompute conf7 1 st7 ["pileup"] (by decide) "pileup"⟩

/-!
Claim C10: the modifier "nominal".
-/

/-- The literal `"nominal"` is not any string suffixed with `"Up"`. -/
theorem nominal_ne_append_up (n : String) : "nominal" ≠ n ++ "Up" := by
  obtain ⟨l⟩ := n
  intro h
  have hd : ("nominal" : String).data = l ++ ['U', 'p'] := congrArg String.data h
  have h2 : (("nominal" : String).data).reverse = (l ++ ['U', 'p']).reverse :=
    congrArg List.reverse hd
  rw [List.reverse_append] at h2
  simp at h2

/-- The literal `"nominal"` is not any string suffixed with `"Down"`. -/
theorem nominal_ne_append_down (n : String) : "nominal" ≠ n ++ "Down" := by
  obtain ⟨l⟩ := n
  intro h
  have hd : ("nominal" : String).data = l ++ ['D', 'o', 'w', 'n'] := congrArg String.data h
  have h2 : (("nominal" : String).data).reverse = (l ++ ['D', 'o', 'w', 'n']).reverse :=
    congrArg List.reverse hd
  rw [List.reverse_append] at h2
  simp at h2

/-- The literal `"nominal"` never has the shape of an installed modifier
token. -/
theorem nominal_not_updown : ¬ UpDownShape "nominal" := by
  rintro ⟨n, h | h⟩
  · exact nominal_ne_append_up n h
  · exact nominal_ne_append_down n h

/-- Membership in the modifier-token accumulation of `__add_weight`. -/
theorem foldl_append_mem (tuples : List WTuple) :
    ∀ (init : List String) (m : String),
      m ∈ tuples.foldl (fun acc t => acc ++ modsOf t) init →
      m ∈ init ∨ ∃ t ∈ tuples, m ∈ modsOf t := by
  induction tuples with
  | nil =>
      intro init m h
      exact Or.inl h
  | cons t rest ih =>
      intro init m h
      rcases ih (init ++ modsOf t) m h with h' | h'
      · rcases List.mem_append.mp h' with h'' | h''
        · exact Or.inl h''
        · exact Or.inr ⟨t, List.mem_cons_self _ _, h''⟩
      · obtain ⟨t', ht', hm⟩ := h'
        exact Or.inr ⟨t', List.mem_cons_of_mem _ ht', hm⟩

/-- Tokens contributed by one tuple are `Up`/`Down`-suffixed. -/
theorem modsOf_shape (t : WTuple) : ∀ m ∈ modsOf t, UpDownShape m := by
  intro m hm
  cases hud : t.upDown with
  | none => simp [modsOf, hud] at hm
  | some ud =>
      simp only [modsOf, hud] at hm
      rcases List.mem_cons.mp hm with h | h
      · exact ⟨t.name, Or.inl h⟩
      · simp at h
        exact ⟨t.name, Or.inr h⟩

/-- All tokens installed from a cached tuple list are `Up`/`Down`-suffixed. -/
theorem installedMods_shape (tuples : List WTuple) :
    ∀ m ∈ installedMods tuples, UpDownShape m := by
  intro m hm
  rcases foldl_append_mem tuples [] m hm with h | h
  · cases h
  · obtain ⟨t, _, hmt⟩ := h
    exact modsOf_shape t m hmt

/-- The tokens returned by the cache-or-compute core are
`Up`/`Down`-suffixed. -/
theorem installCached_mods_shape (key : String) (result : List WTuple)
    (wobj : Weights) (cache : Cache) (log : List String) :
    ∀ m ∈ (installCached key result wobj cache log).2.2.2, UpDownShape m := by
  intro m hm
  exact installedMods_shape _ m hm

/-- The tokens returned by one `__add_weight` call are
`Up`/`Down`-suffixed. -/
theorem addWeightStep_mods_shape (compute : String → List WTuple) (w : WItem)
    (wobj : Weights) (cache : Cache) (log : List String)
    (w' : Weights) (c' : Cache) (l' : List String) (installed : List String)
    (h : addWeightStep compute w wobj cache log = (w', c', l', some installed)) :
    ∀ m ∈ installed, UpDownShape m := by
  cases w with
  | str name =>
      by_cases ha : name ∈ availableWeights
      · simp only [addWeightStep, if_pos ha, Prod.mk.injEq, Option.some.injEq] at h
        rw [← h.2.2.2]
        exact installCached_mods_shape name (compute name) wobj cache log
      · simp [addWeightStep, if_neg ha] at h
  | custom name result =>
      simp only [addWeightStep, Prod.mk.injEq, Option.some.injEq] at h
      rw [← h.2.2.2]
      exact installCached_mods_shape name result wobj cache log

/-- All tokens accumulated over one weight-list loop are
`Up`/`Down`-suffixed. -/
theorem processItems_mods_shape (compute : String → List WTuple) :
    ∀ (items : List WItem) (wobj : Weights) (cache : Cache)
      (log mods : List String)
      (res : Weights × Cache × List String × List String),
      processItems compute items wobj cache log mods = .ok res →
      (∀ m ∈ mods, UpDownShape m) →
      ∀ m ∈ res.2.2.2, UpDownShape m := by
  intro items
  induction items with
  | nil =>
      intro wobj cache log mods res hres hmods
      simp only [processItems, Except.ok.injEq] at hres
      rw [← hres]
      exact hmods
  | cons w rest ih =>
      intro wobj cache log mods res hres hmods
      rcases hstep : addWeightStep compute w wobj cache log with ⟨w', c', l', o⟩
      cases o with
      | none =>
          rw [processItems, hstep] at hres
          simp at hres
      | some installed =>
          rw [processItems, hstep] at hres
          apply ih w' c' l' (mods ++ installed) res hres
          intro m hm
          rcases List.mem_append.mp hm with h | h
          · exact hmods m h
          · exact addWeightStep_mods_shape compute w wobj cache log w' c' l'
              installed hstep m h

/-- All per-category tokens produced by the category loop are
`Up`/`Down`-suffixed. -/
theorem processCats_mods_shape (compute : String → List WTuple) (size : Nat) :
    ∀ (cats : List (String × List WItem)) (cache : Cache) (log : List String)
      (res : List (String × Weights × List String) × Cache × List String),
      processCats compute size cats cache log = .ok res →
      ∀ c wcat mods, (c, wcat, mods) ∈ res.1 → ∀ m ∈ mods, UpDownShape m := by
  intro cats
  induction cats with
  | nil =>
      intro cache log res hres c wcat mods hmem
      simp only [processCats, Except.ok.injEq] at hres
      rw [← hres] at hmem
      cases hmem
  | cons p rest ih =>
      intro cache log res hres c wcat mods hmem
      obtain ⟨cat, ws⟩ := p
      by_cases hws : ws = []
      · rw [processCats, if_pos hws] at hres
        exact ih cache log res hres c wcat mods hmem
      · rw [processCats, if_neg hws] at hres
        rcases h1 : processItems compute ws (Weights.init size) cache log [] with e | r1
        · rw [h1] at hres
          simp at hres
        · obtain ⟨wcat1, cache', log', mods1⟩ := r1
          simp only [h1] at hres
          rcases h2 : processCats compute size rest cache' log' with e | r2
          · simp only [h2] at hres
            simp at hres
          · obtain ⟨restList, cache'', log''⟩ := r2
            simp only [h2, Except.ok.injEq] at hres
            rw [← hres] at hmem
            rcases List.mem_cons.mp hmem with h | h
            · have hmods1 : ∀ m ∈ mods1, UpDownShape m :=
                processItems_mods_shape compute ws (Weights.init size) cache log []
                  (wcat1, cache', log', mods1) h1 (fun m hm => absurd hm (List.not_mem_nil m))
              have hc : mods = mods1.dedup := congrArg (fun q => q.2.2) h
              intro m hm
              rw [hc] at hm
              exact hmods1 m (List.mem_dedup.mp hm)
            · exact ih cache' log' (restList, cache'', log'') h2 c wcat mods h

/-- A successful association-list lookup exhibits a member. -/
theorem alookup_mem {α : Type} (l : List (String × α)) (k : String) (v : α)
    (h : alookup l k = some v) : (k, v) ∈ l := by
  induction l with
  | nil => simp [alookup] at h
  | cons p rest ih =>
      obtain ⟨k', v'⟩ := p
      by_cases hk : k' = k
      · subst hk
        rw [alookup, if_pos rfl, Option.some.injEq] at h
        subst h
        exact List.mem_cons_self _ _
      · rw [alookup, if_neg hk] at h
        exact List.mem_cons_of_mem _ (ih h)

/-- Structural facts about every constructed manager state: the stored
configuration is the input one, every available modifier token (inclusive
or per category) is `Up`/`Down`-suffixed, and without category splitting no
per-category accumulator exists. -/
theorem initWM_shape (compute : String → List WTuple) (conf : WeightsConf)
    (size : Nat) (st : WMState) (log : List String)
    (h : initWM compute conf size = .ok (st, log)) :
    st.weightsConf = conf
    ∧ (∀ m ∈ st.available_modifiers_inclusive, UpDownShape m)
    ∧ (∀ c wcat mods, (c, wcat, mods) ∈ st.bycat → ∀ m ∈ mods, UpDownShape m)
    ∧ (conf.is_split_bycat = false → st.bycat = []) := by
  rw [initWM] at h
  rcases h1 : processItems compute conf.inclusive (Weights.init size) [] [] [] with e | r1
  · rw [h1] at h
    simp at h
  · obtain ⟨wIncl, cache1, log1, modsIncl⟩ := r1
    simp only [h1] at h
    have hshape1 : ∀ m ∈ modsIncl, UpDownShape m :=
      processItems_mods_shape compute conf.inclusive (Weights.init size) [] [] []
        (wIncl, cache1, log1, modsIncl) h1 (fun m hm => absurd hm (List.not_mem_nil m))
    by_cases hsplit : conf.is_split_bycat
    · rw [if_pos hsplit] at h
      rcases h2 : processCats compute size conf.bycategory cache1 log1 with e | r2
      · rw [h2] at h
        simp at h
      · obtain ⟨bycatList, cache2, log2⟩ := r2
        simp only [h2, Except.ok.injEq, Prod.mk.injEq] at h
        refine ⟨?_, ?_, ?_, ?_⟩
        · rw [← h.1]
        · intro m hm
          rw [← h.1] at hm
          simp only at hm
          exact hshape1 m (List.mem_dedup.mp hm)
        · intro c wcat mods hmem
          rw [← h.1] at hmem
          simp only at hmem
          exact processCats_mods_shape compute size conf.bycategory cache1 log1
            (bycatList, cache2, log2) h2 c wcat mods hmem
        · intro hf
          rw [hf] at hsplit
          simp at hsplit
    · rw [if_neg hsplit] at h
      simp only [Except.ok.injEq, Prod.mk.injEq] at h
      refine ⟨?_, ?_, ?_, ?_⟩
      · rw [← h.1]
      · intro m hm
        rw [← h.1] at hm
        simp only at hm
        exact hshape1 m (List.mem_dedup.mp hm)
      · intro c wcat mods hmem
        rw [← h.1] at hmem
        simp only at hmem
        cases hmem
      · intro _
        rw [← h.1]

/-- C10 (amended): passing the literal string `"nominal"` as the modifier
never behaves like `modifier=None`.  In every constructor-built state the
availability sets contain only `Up`/`Down`-suffixed tokens, so `"nominal"`
is never available: the inclusive branch (category `None`, splitting
disabled, or no dedicated accumulator) raises the modifier-not-available
`ValueError`, and so does the split branch for a category with a dedicated
accumulator and a non-empty name. -/
theorem c10_nominal_never_central (compute : String → List WTuple)
    (conf : WeightsConf) (size : Nat) (st : WMState) (log : List String)
    (h : initWM compute conf size = .ok (st, log)) :
    (∀ category : Option String, (lookupBC st category).isNone = true →
      get_weight st category (some "nominal") =
        .error (.valueError "Modifier nominal not available in inclusive category"))
    ∧ (∀ (c : String) (wcat : Weights) (mods : List String), c ≠ "" →
      alookup st.bycat c = some (wcat, mods) →
      get_weight st (some c) (some "nominal") =
        .error (.valueError ("Modifier nominal not available in category " ++ c))) := by
  obtain ⟨hconf, hincl, hbycat, hsplit0⟩ :=
    initWM_shape compute conf size st log h
  have hnincl : ¬ "nominal" ∈ st.available_modifiers_inclusive :=
    fun hm => nominal_not_updown (hincl _ hm)
  constructor
  · intro category hnone
    have : get_weight st category (some "nominal") =
        .error (.valueError ("Modifier " ++ "nominal" ++ " not available in inclusive category")) := by
      simp [get_weight, hnone, hnincl]
    exact this.trans (by decide)
  · intro c wcat mods hne hc
    have hmem := alookup_mem st.bycat c (wcat, mods) hc
    have hnmods : ¬ "nominal" ∈ mods :=
      fun hm => nominal_not_updown (hbycat c wcat mods hmem "nominal" hm)
    have hsplitT : st.weightsConf.is_split_bycat = true := by
      by_cases hs : conf.is_split_bycat
      · rw [hconf]
        exact hs
      · exfalso
        have : st.bycat = [] := hsplit0 (Bool.not_eq_true _ ▸ hs)
        rw [this] at hc
        simp [alookup] at hc
    have : get_weight st (some c) (some "nominal") =
        .error (.valueError ("Modifier " ++ "nominal" ++ " not available in category " ++ c)) := by
      simp [get_weight, lookupBC, hsplitT, hc, catTruthy, hne, hnincl, hnmods]
    rw [this]
    rfl

/-- C10 counterexample: on the constructor-built state `srSt`,
`get_weight(None, "nominal")` raises `ValueError` instead of returning the
central (nominal) combined weight as `get_weight(None, None)` does. -/
theorem c10_counterexample :
    initWM exCompute srConf 1 = .ok (srSt, ["genWeight", "pileup"])
    ∧ get_weight srSt none none = .ok (some (srSt.weightsIncl.weight none))
    ∧ get_weight srSt none (some "nominal") =
        .error (.valueError "Modifier nominal not available in inclusive category")
    ∧ ¬ get_weight srSt none (some "nominal") = get_weight srSt none none := by
  decide

/-- C10 witness: the amended theorem applied to the concrete `srSt` state,
for the inclusive branch and for the split category `"SR"`. -/
theorem c10_witness :
    initWM exCompute srConf 1 = .ok (srSt, ["genWeight", "pileup"])
    ∧ get_weight srSt none (some "nominal") =
        .error (.valueError "Modifier nominal not available in inclusive category")
    ∧ get_weight srSt (some "SR") (some "nominal") =
        .error (.valueError ("Modifier nominal not available in category " ++ "SR")) :=
  ⟨by decide,
   (c10_nominal_never_central exCompute srConf 1 srSt ["genWeight", "pileup"]
      (by decide)).1 none (by decide),
   (c10_nominal_never_central exCompute srConf 1 srSt ["genWeight", "pileup"]
      (by decide)).2 "SR" srWcat ["pileupUp", "pileupDown"] (by decide) (by decide)⟩
